import Mathlib

/-!
Verification of the README-synchronisation scripts of beacon-metrics-gazer.

The repository holds two scripts:
* `scripts/sync_readme.py` — captures the CLI help text, splits the README on
  the literal markers `<!-- HELP_START -->` and `<!-- HELP_END -->` with
  Python `str.split` semantics, and reassembles
  `start + tag_start + "\n```\n" + help_text + "\n```\n" + tag_end + end`,
  echoing the result and overwriting the README.
* `scripts/check_synced_readme.py` — a bash script (`set -e`) that fails when
  `git diff README.md` is non-empty, runs the sync script, and fails printing
  the diff when the README changed.

Strings are modelled as `List Char`.  Python `str.split(sep)` for a non-empty
separator is modelled by `splitOn` below (a left-to-right, non-overlapping
scan).  Python exceptions (IndexError on `parts[1]`, i.e. the spec's
`MalformedDocumentError`) are modelled by `Option`.
-/

abbrev Str := List Char

/-- The literal start marker `<!-- HELP_START -->` from sync_readme.py. -/
def tag_start : Str := "<!-- HELP_START -->".data

/-- The literal end marker `<!-- HELP_END -->` from sync_readme.py. -/
def tag_end : Str := "<!-- HELP_END -->".data

/-- The fenced-code-block delimiter `"\n```\n"` that sync_readme.py puts on
both sides of the captured help text. -/
def fence : Str := "\n```\n".data

/-- `matchAt sep l i` holds when an occurrence of `sep` starts at index `i`
of `l`. -/
def matchAt (sep l : Str) (i : Nat) : Bool :=
  sep.isPrefixOf (l.drop i)

/-- Number of indices of `l` at which an occurrence of `sep` starts. -/
def occCount (sep l : Str) : Nat :=
  ((List.range l.length).filter (fun i => matchAt sep l i)).length

/-- Fuel-based left-to-right non-overlapping splitter: the model of Python
`str.split(sep)` for non-empty `sep`, provided `fuel ≥ l.length`. -/
def splitOnF (sep : Str) : Nat → Str → List Str
  | _, [] => [[]]
  | 0, l => [l]
  | fuel+1, c :: rest =>
    if sep.isPrefixOf (c :: rest) then
      [] :: splitOnF sep fuel (List.drop (sep.length - 1) rest)
    else
      match splitOnF sep fuel rest with
      | [] => [[c]]
      | r :: rs => (c :: r) :: rs

/-- Model of Python `l.split(sep)` for non-empty `sep`. -/
def splitOn (sep l : Str) : List Str := splitOnF sep l.length l

/-- Model of the splice performed by `scripts/sync_readme.py`:

    start_parts = data.split(tag_start)
    start = start_parts[0]
    end = start_parts[1].split(tag_end)[1]
    out = start + tag_start + "\n```\n" + help_text + "\n```\n" + tag_end + end

`none` models the `IndexError` Python raises on a missing list element —
the spec's `MalformedDocumentError`. -/
def sync (data help_text : Str) : Option Str :=
  match (splitOn tag_start data)[0]?, (splitOn tag_start data)[1]? with
  | some start, some seg =>
    match (splitOn tag_end seg)[1]? with
    | some e =>
        some (start ++ tag_start ++ fence ++ help_text ++ fence ++ tag_end ++ e)
    | none => none
  | _, _ => none

/-- The README content after running sync_readme.py: on success the file is
overwritten with `out`; on an exception the write is never reached and the
file keeps its previous content. -/
def fileAfterSync (data help_text : Str) : Str :=
  match sync data help_text with
  | some out => out
  | none => data

/-- Running the splice twice in a row (feeding the first output back in),
failing if either run fails. -/
def syncTwice (data help_text : Str) : Option Str :=
  match sync data help_text with
  | some out => sync out help_text
  | none => none

/-- Effects sync_readme.py performs after computing `out`: `print(out)`
followed by `file.write(out)`. -/
inductive SyncEffect where
  | echo (s : Str)
  | writeFile (s : Str)
deriving DecidableEq

/-- The effect trace of one run of sync_readme.py: on success the script
prints `out` and then overwrites the README with `out`; on an exception no
effect is produced. -/
def syncRun (data help_text : Str) : Option (List SyncEffect) :=
  match sync data help_text with
  | some out => some [SyncEffect.echo out, SyncEffect.writeFile out]
  | none => none

/-- The text printed to standard output in an effect trace. -/
def echoedText : List SyncEffect → Option Str
  | [] => none
  | SyncEffect.echo s :: _ => some s
  | _ :: rest => echoedText rest

/-- The text written to the README file in an effect trace. -/
def writtenText : List SyncEffect → Option Str
  | [] => none
  | SyncEffect.writeFile s :: _ => some s
  | _ :: rest => writtenText rest

/-- Observable outcome of one run of scripts/check_synced_readme.py. -/
structure CheckOutcome where
  exitCode : Nat
  syncInvoked : Bool
  helpCaptureRun : Bool
  printedDiff : Bool
  readme : Str
deriving DecidableEq

/-- Model of scripts/check_synced_readme.py (bash, `set -e`):

1. `git diff README.md` — empty iff the working copy equals the committed
   copy; if non-empty, exit 1 (the Sync tool is never invoked, so the CLI
   help capture never runs and the README keeps its working content).
2. run `scripts/sync_readme.py` — the script first captures the CLI help
   (`helpResult = none` models a failing `cargo run`), then splices and
   overwrites the README; a failure aborts the check with a non-zero exit
   (`set -e`) and leaves the README unchanged.
3. `git diff README.md` again — if non-empty, print the diff and exit 1;
   otherwise exit 0. -/
def runCheck (committed working : Str) (helpResult : Option Str) : CheckOutcome :=
  if committed = working then
    match helpResult with
    | none => ⟨1, true, true, false, working⟩
    | some h =>
      match sync working h with
      | none => ⟨1, true, true, false, working⟩
      | some out =>
        if committed = out then ⟨0, true, true, false, out⟩
        else ⟨1, true, true, true, out⟩
  else ⟨1, false, false, false, working⟩

/-! ### Concrete documents used as witnesses -/

/-- A well-formed README: one start marker, then one end marker. -/
def exReadme : Str :=
  "# title\n".data ++ (tag_start ++ ("\nold\n".data ++ (tag_end ++ "\ntail".data)))

/-- A small well-formed README. -/
def c1readme : Str :=
  "a".data ++ (tag_start ++ ("x".data ++ (tag_end ++ "b".data)))

/-- A README whose start marker occurs twice. -/
def c5readme : Str :=
  "a".data ++ (tag_start ++ ("x".data ++ (tag_end ++
    ("y".data ++ (tag_start ++ "z".data)))))

/-- A README with one start marker followed by two end markers. -/
def c9readme : Str :=
  "a".data ++ (tag_start ++ ("m".data ++ (tag_end ++
    ("u".data ++ (tag_end ++ "v".data)))))

/-- A README with no markers at all. -/
def c4readme : Str := "no markers here".data

/-- The spliced output of `c1readme` with help text `"h"`. -/
def c10out : Str :=
  "a".data ++ tag_start ++ fence ++ "h".data ++ fence ++ tag_end ++ "b".data

/-- An already-synchronised README for help text `"usage"`. -/
def c8readme : Str :=
  "A\n".data ++ (tag_start ++ (fence ++ ("usage".data ++
    (fence ++ (tag_end ++ "\nB".data)))))

/-! ### Basic facts about `List.isPrefixOf` on `Char` lists -/

theorem isPrefixOf_nil_left (l : Str) : ([] : Str).isPrefixOf l = true := by
  cases l <;> rfl

theorem isPrefixOf_cons_cons (a b : Char) (as bs : Str) :
    (a :: as).isPrefixOf (b :: bs) = ((a == b) && as.isPrefixOf bs) := rfl

theorem isPrefixOf_self_append (sep b : Str) :
    sep.isPrefixOf (sep ++ b) = true := by
  induction sep with
  | nil => exact isPrefixOf_nil_left b
  | cons c cs ih => simp [isPrefixOf_cons_cons, ih]

theorem length_le_of_isPrefixOf {sep l : Str} (h : sep.isPrefixOf l = true) :
    sep.length ≤ l.length := by
  induction sep generalizing l with
  | nil => simp
  | cons c cs ih =>
    cases l with
    | nil => simp [List.isPrefixOf] at h
    | cons b bs =>
      rw [isPrefixOf_cons_cons] at h
      have := ih (l := bs) (by
        rcases Bool.and_eq_true_iff.mp h with ⟨_, h2⟩
        exact h2)
      simpa using Nat.succ_le_succ this

theorem isPrefixOf_append_of_le (sep x y : Str) (h : sep.length ≤ x.length) :
    sep.isPrefixOf (x ++ y) = sep.isPrefixOf x := by
  induction sep generalizing x with
  | nil => simp [isPrefixOf_nil_left]
  | cons c cs ih =>
    cases x with
    | nil => simp at h
    | cons b bs =>
      simp only [List.cons_append, isPrefixOf_cons_cons]
      rw [ih bs (by simpa using Nat.le_of_succ_le_succ h)]

theorem isPrefixOf_extend {sep x : Str} (y : Str)
    (h : sep.isPrefixOf x = true) : sep.isPrefixOf (x ++ y) = true := by
  induction sep generalizing x with
  | nil => exact isPrefixOf_nil_left _
  | cons c cs ih =>
    cases x with
    | nil => simp [List.isPrefixOf] at h
    | cons b bs =>
      rw [isPrefixOf_cons_cons] at h
      rcases Bool.and_eq_true_iff.mp h with ⟨h1, h2⟩
      simp only [List.cons_append, isPrefixOf_cons_cons]
      exact Bool.and_eq_true_iff.mpr ⟨h1, ih h2⟩

theorem isPrefixOf_getElem {sep x : Str} (h : sep.isPrefixOf x = true) :
    ∀ k, k < sep.length → x[k]? = sep[k]? := by
  induction sep generalizing x with
  | nil => intro k hk; simp at hk
  | cons c cs ih =>
    cases x with
    | nil => simp [List.isPrefixOf] at h
    | cons b bs =>
      rw [isPrefixOf_cons_cons] at h
      rcases Bool.and_eq_true_iff.mp h with ⟨h1, h2⟩
      intro k hk
      cases k with
      | zero => simp [beq_iff_eq.mp h1]
      | succ k' =>
        simp only [List.getElem?_cons_succ]
        exact ih h2 k' (by simpa using Nat.lt_of_succ_lt_succ hk)

/-! ### Facts about `drop`, append and indexing -/

theorem dropAppendAdd (a b : Str) (i : Nat) :
    (a ++ b).drop (a.length + i) = b.drop i := by
  induction a with
  | nil => simp
  | cons c cs ih =>
    simp only [List.cons_append, List.length_cons]
    have : cs.length + 1 + i = (cs.length + i) + 1 := by omega
    rw [this, List.drop_succ_cons, ih]

theorem dropLeft (a b : Str) : (a ++ b).drop a.length = b := by
  have h := dropAppendAdd a b 0
  simp only [Nat.add_zero, List.drop_zero] at h
  exact h

theorem dropAppendLe (a b : Str) (i : Nat) (h : i ≤ a.length) :
    (a ++ b).drop i = a.drop i ++ b := by
  induction a generalizing i with
  | nil =>
    have : i = 0 := Nat.le_antisymm (by simpa using h) (Nat.zero_le _)
    simp [this]
  | cons c cs ih =>
    cases i with
    | zero => simp
    | succ i' =>
      simp only [List.cons_append, List.drop_succ_cons]
      exact ih i' (by simpa using Nat.le_of_succ_le_succ h)

theorem getAppendRight (a b : Str) (j : Nat) :
    (a ++ b)[(a.length + j)]? = b[j]? := by
  induction a with
  | nil => simp
  | cons c cs ih =>
    simp only [List.cons_append, List.length_cons]
    have : cs.length + 1 + j = (cs.length + j) + 1 := by omega
    rw [this, List.getElem?_cons_succ, ih]

theorem getAppendLeft (a b : Str) (j : Nat) (h : j < a.length) :
    (a ++ b)[j]? = a[j]? := by
  induction a generalizing j with
  | nil => simp at h
  | cons c cs ih =>
    cases j with
    | zero => simp
    | succ j' =>
      simp only [List.cons_append, List.getElem?_cons_succ]
      exact ih j' (by simpa using Nat.lt_of_succ_lt_succ h)

theorem getDropZero (l : Str) (n : Nat) : (l.drop n)[0]? = l[n]? := by
  induction l generalizing n with
  | nil => simp
  | cons c cs ih =>
    cases n with
    | zero => simp
    | succ n' =>
      rw [List.drop_succ_cons, List.getElem?_cons_succ, ih]

/-! ### Facts about `matchAt` -/

theorem matchAt_append_add (sep a b : Str) (i : Nat) :
    matchAt sep (a ++ b) (a.length + i) = matchAt sep b i := by
  unfold matchAt
  rw [dropAppendAdd]

theorem matchAt_peel (sep a b : Str) (j : Nat) (h : a.length ≤ j) :
    matchAt sep (a ++ b) j = matchAt sep b (j - a.length) := by
  have hj : j = a.length + (j - a.length) := by omega
  rw [hj, matchAt_append_add]
  congr 1
  omega

theorem matchAt_confine (sep a b : Str) (i : Nat)
    (h : i + sep.length ≤ a.length) :
    matchAt sep (a ++ b) i = matchAt sep a i := by
  unfold matchAt
  rw [dropAppendLe a b i (by omega)]
  exact isPrefixOf_append_of_le sep (a.drop i) b
    (by rw [List.length_drop]; omega)

theorem matchAt_lt_length {sep l : Str} {i : Nat} (hsep : sep ≠ [])
    (h : matchAt sep l i = true) : i < l.length := by
  unfold matchAt at h
  have hlen := length_le_of_isPrefixOf h
  rw [List.length_drop] at hlen
  have : 1 ≤ sep.length := by
    cases sep with
    | nil => exact absurd rfl hsep
    | cons c cs => simp
  omega

theorem matchAt_start (sep a b : Str) :
    matchAt sep (a ++ (sep ++ b)) a.length = true := by
  unfold matchAt
  rw [dropLeft]
  exact isPrefixOf_self_append sep b

theorem matchAt_head {sep l : Str} {i : Nat} (hsep : sep ≠ [])
    (h : matchAt sep l i = true) : l[i]? = sep[0]? := by
  unfold matchAt at h
  have h0 := isPrefixOf_getElem h 0 (by
    cases sep with
    | nil => exact absurd rfl hsep
    | cons c cs => simp)
  rw [getDropZero] at h0
  exact h0

/-! ### Facts about `occCount` -/

theorem occCount_pos {sep l : Str} {i : Nat} (hsep : sep ≠ [])
    (h : matchAt sep l i = true) : 0 < occCount sep l := by
  unfold occCount
  have hmem : i ∈ (List.range l.length).filter (fun j => matchAt sep l j) := by
    rw [List.mem_filter, List.mem_range]
    exact ⟨matchAt_lt_length hsep h, h⟩
  exact List.length_pos.mpr (fun hnil => by simp [hnil] at hmem)

theorem occCount_zero {sep l : Str} (hsep : sep ≠ [])
    (h : occCount sep l = 0) : ∀ i, matchAt sep l i = false := by
  intro i
  by_contra hne
  have htrue : matchAt sep l i = true := by
    cases hcase : matchAt sep l i with
    | false => exact absurd hcase hne
    | true => rfl
  have := occCount_pos hsep htrue
  omega

theorem occCount_one_unique {sep l : Str} {i j : Nat} (hsep : sep ≠ [])
    (hone : occCount sep l = 1)
    (hi : matchAt sep l i = true) (hj : matchAt sep l j = true) : i = j := by
  unfold occCount at hone
  rcases List.length_eq_one.mp hone with ⟨a, ha⟩
  have hmem : ∀ k, matchAt sep l k = true → k = a := by
    intro k hk
    have : k ∈ (List.range l.length).filter (fun j' => matchAt sep l j') := by
      rw [List.mem_filter, List.mem_range]
      exact ⟨matchAt_lt_length hsep hk, hk⟩
    rw [ha] at this
    simpa using this
  rw [hmem i hi, hmem j hj]

theorem occCount_one_intro {sep l : Str} {u : Nat} (hsep : sep ≠ [])
    (hu : matchAt sep l u = true)
    (huniq : ∀ j, matchAt sep l j = true → j = u) : occCount sep l = 1 := by
  unfold occCount
  have hset : (List.range l.length).filter (fun j => matchAt sep l j) = [u] := by
    have hmem : u ∈ (List.range l.length).filter (fun j => matchAt sep l j) := by
      rw [List.mem_filter, List.mem_range]
      exact ⟨matchAt_lt_length hsep hu, hu⟩
    have hall : ∀ x ∈ (List.range l.length).filter (fun j => matchAt sep l j),
        x = u := by
      intro x hx
      rw [List.mem_filter] at hx
      exact huniq x hx.2
    have hnodup : ((List.range l.length).filter
        (fun j => matchAt sep l j)).Nodup :=
      List.Nodup.filter _ (List.nodup_range _)
    revert hmem hall hnodup
    cases hfil : (List.range l.length).filter (fun j => matchAt sep l j) with
    | nil => intro hmem _ _; simp at hmem
    | cons x xs =>
      intro hmem hall hnodup
      have hx : x = u := hall x (by simp)
      cases xs with
      | nil => rw [hx]
      | cons y ys =>
        have hy : y = u := hall y (by simp)
        rw [List.nodup_cons] at hnodup
        exact absurd (by rw [hx, hy]; simp : x ∈ y :: ys) hnodup.1
  rw [hset]
  rfl

theorem occCount_two_cases {sep l : Str} {u v : Nat} (hsep : sep ≠ [])
    (htwo : occCount sep l = 2) (huv : u ≠ v)
    (hu : matchAt sep l u = true) (hv : matchAt sep l v = true) :
    ∀ j, matchAt sep l j = true → j = u ∨ j = v := by
  unfold occCount at htwo
  rcases List.length_eq_two.mp htwo with ⟨a, b, hab⟩
  have hmem : ∀ k, matchAt sep l k = true → k = a ∨ k = b := by
    intro k hk
    have : k ∈ (List.range l.length).filter (fun j' => matchAt sep l j') := by
      rw [List.mem_filter, List.mem_range]
      exact ⟨matchAt_lt_length hsep hk, hk⟩
    rw [hab] at this
    simpa using this
  intro j hj
  rcases hmem u hu with hua | hub
  · rcases hmem v hv with hva | hvb
    · exact absurd (hua.trans hva.symm) huv
    · rcases hmem j hj with hja | hjb
      · exact Or.inl (hja.trans hua.symm)
      · exact Or.inr (hjb.trans hvb.symm)
  · rcases hmem v hv with hva | hvb
    · rcases hmem j hj with hja | hjb
      · exact Or.inr (hja.trans hva.symm)
      · exact Or.inl (hjb.trans hub.symm)
    · exact absurd (hub.trans hvb.symm) huv

/-! ### Facts about the splitter -/

theorem splitOnF_nil (sep : Str) (fuel : Nat) :
    splitOnF sep fuel [] = [[]] := by
  cases fuel <;> rfl

theorem splitOnF_cons (sep : Str) (fuel : Nat) (c : Char) (rest : Str) :
    splitOnF sep (fuel + 1) (c :: rest) =
      if sep.isPrefixOf (c :: rest) then
        [] :: splitOnF sep fuel (List.drop (sep.length - 1) rest)
      else
        match splitOnF sep fuel rest with
        | [] => [[c]]
        | r :: rs => (c :: r) :: rs := rfl

theorem splitOnF_fuel (sep : Str) :
    ∀ fuel₁ fuel₂ l, l.length ≤ fuel₁ → l.length ≤ fuel₂ →
      splitOnF sep fuel₁ l = splitOnF sep fuel₂ l := by
  intro fuel₁
  induction fuel₁ with
  | zero =>
    intro fuel₂ l h1 _
    have : l = [] := List.length_eq_zero.mp (by omega)
    rw [this, splitOnF_nil, splitOnF_nil]
  | succ f ih =>
    intro fuel₂ l h1 h2
    cases l with
    | nil => rw [splitOnF_nil, splitOnF_nil]
    | cons c rest =>
      cases fuel₂ with
      | zero => simp at h2
      | succ f₂ =>
        rw [splitOnF_cons, splitOnF_cons]
        by_cases hp : sep.isPrefixOf (c :: rest) = true
        · rw [if_pos hp, if_pos hp]
          have hlen : (List.drop (sep.length - 1) rest).length ≤ f := by
            rw [List.length_drop]
            simp at h1
            omega
          have hlen₂ : (List.drop (sep.length - 1) rest).length ≤ f₂ := by
            rw [List.length_drop]
            simp at h2
            omega
          rw [ih f₂ _ hlen hlen₂]
        · rw [if_neg hp, if_neg hp]
          have hlen : rest.length ≤ f := by simp at h1; omega
          have hlen₂ : rest.length ≤ f₂ := by simp at h2; omega
          rw [ih f₂ rest hlen hlen₂]

theorem splitOnF_no_match (sep : Str) :
    ∀ fuel l, l.length ≤ fuel →
      (∀ i, matchAt sep l i = false) → splitOnF sep fuel l = [l] := by
  intro fuel
  induction fuel with
  | zero =>
    intro l h1 _
    have : l = [] := List.length_eq_zero.mp (by omega)
    rw [this, splitOnF_nil]
  | succ f ih =>
    intro l h1 hno
    cases l with
    | nil => rw [splitOnF_nil]
    | cons c rest =>
      rw [splitOnF_cons]
      have h0 : sep.isPrefixOf (c :: rest) = false := by
        have := hno 0
        unfold matchAt at this
        simpa using this
      rw [if_neg (by simp [h0])]
      have hrest : splitOnF sep f rest = [rest] := by
        apply ih rest (by simp at h1; omega)
        intro i
        have := hno (i + 1)
        unfold matchAt at this ⊢
        rw [List.drop_succ_cons] at this
        exact this
      rw [hrest]

theorem splitOn_no_match (sep l : Str)
    (hno : ∀ i, matchAt sep l i = false) : splitOn sep l = [l] :=
  splitOnF_no_match sep l.length l (Nat.le_refl _) hno

theorem splitOnF_cons_of_first (sep : Str) (hsep : sep ≠ []) :
    ∀ a fuel b, (a ++ (sep ++ b)).length ≤ fuel →
      (∀ i < a.length, matchAt sep (a ++ (sep ++ b)) i = false) →
      splitOnF sep fuel (a ++ (sep ++ b)) = a :: splitOn sep b := by
  intro a
  induction a with
  | nil =>
    intro fuel b hfuel _
    cases sep with
    | nil => exact absurd rfl hsep
    | cons s₀ sep' =>
      cases fuel with
      | zero => simp at hfuel
      | succ f =>
        simp only [List.nil_append, List.cons_append] at hfuel ⊢
        rw [splitOnF_cons]
        have hp : (s₀ :: sep').isPrefixOf (s₀ :: (sep' ++ b)) = true := by
          have h := isPrefixOf_self_append (s₀ :: sep') b
          rw [List.cons_append] at h
          exact h
        rw [if_pos hp]
        have hdrop : List.drop ((s₀ :: sep').length - 1) (sep' ++ b) = b := by
          simp only [List.length_cons, Nat.add_sub_cancel]
          exact dropLeft sep' b
        rw [hdrop]
        have : splitOnF (s₀ :: sep') f b = splitOn (s₀ :: sep') b := by
          apply splitOnF_fuel
          · simp at hfuel; omega
          · exact Nat.le_refl _
        rw [this]
  | cons c a' ih =>
    intro fuel b hfuel hno
    cases fuel with
    | zero => simp at hfuel
    | succ f =>
      simp only [List.cons_append] at hfuel ⊢
      rw [splitOnF_cons]
      have h0 : sep.isPrefixOf (c :: (a' ++ (sep ++ b))) = false := by
        have := hno 0 (by simp)
        unfold matchAt at this
        simpa using this
      rw [if_neg (by simp [h0])]
      have hrec : splitOnF sep f (a' ++ (sep ++ b)) = a' :: splitOn sep b := by
        apply ih f b (by simp only [List.length_cons] at hfuel; omega)
        intro i hi
        have := hno (i + 1) (by simp; omega)
        unfold matchAt at this ⊢
        rw [List.cons_append, List.drop_succ_cons] at this
        exact this
      rw [hrec]

theorem splitOn_cons_of_first (sep : Str) (hsep : sep ≠ []) (a b : Str)
    (hno : ∀ i < a.length, matchAt sep (a ++ (sep ++ b)) i = false) :
    splitOn sep (a ++ (sep ++ b)) = a :: splitOn sep b :=
  splitOnF_cons_of_first sep hsep a _ b (Nat.le_refl _) hno

theorem splitOnF_head_tail (sep : Str) :
    ∀ fuel l, l.length ≤ fuel →
      ∃ hd tl, splitOnF sep fuel l = hd :: tl ∧ (∃ v, l = hd ++ v) ∧
        (∀ part ∈ tl, ∃ u v, l = u ++ (part ++ v)) := by
  intro fuel
  induction fuel with
  | zero =>
    intro l h1
    have : l = [] := List.length_eq_zero.mp (by omega)
    subst this
    exact ⟨[], [], by rw [splitOnF_nil], ⟨[], rfl⟩, by intro part hp; simp at hp⟩
  | succ f ih =>
    intro l h1
    cases l with
    | nil =>
      exact ⟨[], [], by rw [splitOnF_nil], ⟨[], rfl⟩, by intro part hp; simp at hp⟩
    | cons c rest =>
      rw [splitOnF_cons]
      by_cases hp : sep.isPrefixOf (c :: rest) = true
      · rw [if_pos hp]
        refine ⟨[], splitOnF sep f (List.drop (sep.length - 1) rest),
          rfl, ⟨c :: rest, rfl⟩, ?_⟩
        intro part hmem
        have hlen : (List.drop (sep.length - 1) rest).length ≤ f := by
          rw [List.length_drop]
          simp only [List.length_cons] at h1
          omega
        rcases ih (List.drop (sep.length - 1) rest) hlen with
          ⟨hd', tl', heq, ⟨v', hv'⟩, htl'⟩
        rw [heq] at hmem
        rcases List.mem_cons.mp hmem with hhd | htl
        · subst hhd
          refine ⟨c :: List.take (sep.length - 1) rest, v', ?_⟩
          have : rest = List.take (sep.length - 1) rest ++
              List.drop (sep.length - 1) rest := (List.take_append_drop _ _).symm
          calc c :: rest
              = c :: (List.take (sep.length - 1) rest ++
                  List.drop (sep.length - 1) rest) := by rw [← this]
            _ = (c :: List.take (sep.length - 1) rest) ++
                  List.drop (sep.length - 1) rest := rfl
            _ = (c :: List.take (sep.length - 1) rest) ++ (part ++ v') := by
                  rw [← hv']
        · rcases htl' part htl with ⟨u', v', huv⟩
          refine ⟨(c :: List.take (sep.length - 1) rest) ++ u', v', ?_⟩
          have : rest = List.take (sep.length - 1) rest ++
              List.drop (sep.length - 1) rest := (List.take_append_drop _ _).symm
          calc c :: rest
              = c :: (List.take (sep.length - 1) rest ++
                  List.drop (sep.length - 1) rest) := by rw [← this]
            _ = (c :: List.take (sep.length - 1) rest) ++
                  List.drop (sep.length - 1) rest := rfl
            _ = (c :: List.take (sep.length - 1) rest) ++ (u' ++ (part ++ v')) := by
                  rw [← huv]
            _ = ((c :: List.take (sep.length - 1) rest) ++ u') ++ (part ++ v') := by
                  rw [List.append_assoc]
      · rw [if_neg hp]
        have hlen : rest.length ≤ f := by
          simp only [List.length_cons] at h1
          omega
        rcases ih rest hlen with ⟨hd', tl', heq, ⟨v', hv'⟩, htl'⟩
        rw [heq]
        refine ⟨c :: hd', tl', rfl, ⟨v', by rw [List.cons_append, ← hv']⟩, ?_⟩
        intro part hmem
        rcases htl' part hmem with ⟨u', v'', huv⟩
        exact ⟨c :: u', v'', by rw [List.cons_append, ← huv]⟩

theorem splitOn_sub_segment (sep l part : Str) (hmem : part ∈ splitOn sep l) :
    ∃ u v, l = u ++ (part ++ v) := by
  rcases splitOnF_head_tail sep l.length l (Nat.le_refl _) with
    ⟨hd, tl, heq, ⟨v, hv⟩, htl⟩
  unfold splitOn at hmem
  rw [heq] at hmem
  rcases List.mem_cons.mp hmem with hhd | htail
  · exact ⟨[], v, by rw [hhd]; simpa using hv⟩
  · exact htl part htail

theorem getElem?_some_mem {l : List Str} {i : Nat} {x : Str}
    (h : l[i]? = some x) : x ∈ l := by
  induction l generalizing i with
  | nil => simp at h
  | cons a as ih =>
    cases i with
    | zero => simp at h; rw [h]; simp
    | succ i' =>
      rw [List.getElem?_cons_succ] at h
      exact List.mem_cons.mpr (Or.inr (ih h))

theorem occCount_zero_sub {sep l part : Str} (hsep : sep ≠ [])
    (hzero : occCount sep l = 0) (u v : Str) (hl : l = u ++ (part ++ v)) :
    ∀ j, matchAt sep part j = false := by
  intro j
  cases hc : matchAt sep part j with
  | false => rfl
  | true =>
    exfalso
    have hj : j < part.length := matchAt_lt_length hsep hc
    have hext : matchAt sep (part ++ v) j = true := by
      unfold matchAt at hc ⊢
      rw [dropAppendLe part v j (by omega)]
      exact isPrefixOf_extend v hc
    have hfull : matchAt sep l (u.length + j) = true := by
      rw [hl, matchAt_append_add]
      exact hext
    have := occCount_zero hsep hzero (u.length + j)
    rw [hfull] at this
    exact Bool.noConfusion this

/-! ### The splice equation for a well-formed README -/

theorem getElemZero_cons (x : Str) (t : List Str) : (x :: t)[0]? = some x := by
  simp

theorem getElemOne_cons_cons (x y : Str) (t : List Str) :
    (x :: y :: t)[1]? = some y := by
  simp

theorem sync_eq_of_splits (data H p seg e : Str)
    (h1 : splitOn tag_start data = [p, seg])
    (h2 : (splitOn tag_end seg)[1]? = some e) :
    sync data H = some (p ++ tag_start ++ fence ++ H ++ fence ++ tag_end ++ e) := by
  unfold sync
  rw [h1]
  simp only [getElemZero_cons, getElemOne_cons_cons]
  rw [h2]

theorem sync_none_of_first (data H : Str)
    (h1 : (splitOn tag_start data)[1]? = none) : sync data H = none := by
  unfold sync
  rw [h1]
  cases (splitOn tag_start data)[0]? <;> rfl

theorem sync_none_of_second (data H p seg : Str)
    (h1 : splitOn tag_start data = [p, seg])
    (h2 : (splitOn tag_end seg)[1]? = none) : sync data H = none := by
  unfold sync
  rw [h1]
  simp only [getElemZero_cons, getElemOne_cons_cons]
  rw [h2]

/-- Helper: the splice equation.  If `data = p ++ tag_start ++ m ++ tag_end ++ s`
and each marker occurs exactly once in `data`, then the sync splice succeeds
and produces `p ++ tag_start ++ fence ++ H ++ fence ++ tag_end ++ s`. -/
theorem sync_spliced (p m s H : Str)
    (hts : occCount tag_start (p ++ (tag_start ++ (m ++ (tag_end ++ s)))) = 1)
    (hte : occCount tag_end (p ++ (tag_start ++ (m ++ (tag_end ++ s)))) = 1) :
    sync (p ++ (tag_start ++ (m ++ (tag_end ++ s)))) H =
      some (p ++ tag_start ++ fence ++ H ++ fence ++ tag_end ++ s) := by
  have hts_ne : tag_start ≠ ([] : Str) := by decide
  have hte_ne : tag_end ≠ ([] : Str) := by decide
  have hts_len : tag_start.length = 19 := by decide
  have hte_len : tag_end.length = 17 := by decide
  have h1 : matchAt tag_start (p ++ (tag_start ++ (m ++ (tag_end ++ s))))
      p.length = true := matchAt_start tag_start p (m ++ (tag_end ++ s))
  have huniq1 : ∀ j,
      matchAt tag_start (p ++ (tag_start ++ (m ++ (tag_end ++ s)))) j = true →
      j = p.length := fun j hj => occCount_one_unique hts_ne hts hj h1
  have hsplitA : splitOn tag_start (p ++ (tag_start ++ (m ++ (tag_end ++ s)))) =
      p :: splitOn tag_start (m ++ (tag_end ++ s)) := by
    apply splitOn_cons_of_first tag_start hts_ne p (m ++ (tag_end ++ s))
    intro i hi
    cases hc : matchAt tag_start (p ++ (tag_start ++ (m ++ (tag_end ++ s)))) i with
    | false => rfl
    | true => exact absurd (huniq1 i hc) (by omega)
  have hnomatchX : ∀ i, matchAt tag_start (m ++ (tag_end ++ s)) i = false := by
    intro i
    cases hc : matchAt tag_start (m ++ (tag_end ++ s)) i with
    | false => rfl
    | true =>
      exfalso
      have htrans : matchAt tag_start (p ++ (tag_start ++ (m ++ (tag_end ++ s))))
          (p.length + (tag_start.length + i)) = true := by
        rw [matchAt_append_add, matchAt_append_add]
        exact hc
      have := huniq1 _ htrans
      omega
  have hsplitB : splitOn tag_start (m ++ (tag_end ++ s)) = [m ++ (tag_end ++ s)] :=
    splitOn_no_match _ _ hnomatchX
  have h2 : matchAt tag_end (m ++ (tag_end ++ s)) m.length = true :=
    matchAt_start tag_end m s
  have h2R : matchAt tag_end (p ++ (tag_start ++ (m ++ (tag_end ++ s))))
      (p.length + (tag_start.length + m.length)) = true := by
    rw [matchAt_append_add, matchAt_append_add]
    exact h2
  have huniq2 : ∀ j,
      matchAt tag_end (p ++ (tag_start ++ (m ++ (tag_end ++ s)))) j = true →
      j = p.length + (tag_start.length + m.length) :=
    fun j hj => occCount_one_unique hte_ne hte hj h2R
  have hsplitC : splitOn tag_end (m ++ (tag_end ++ s)) = m :: splitOn tag_end s := by
    apply splitOn_cons_of_first tag_end hte_ne m s
    intro i hi
    cases hc : matchAt tag_end (m ++ (tag_end ++ s)) i with
    | false => rfl
    | true =>
      exfalso
      have htrans : matchAt tag_end (p ++ (tag_start ++ (m ++ (tag_end ++ s))))
          (p.length + (tag_start.length + i)) = true := by
        rw [matchAt_append_add, matchAt_append_add]
        exact hc
      have := huniq2 _ htrans
      omega
  have hnomatchS : ∀ i, matchAt tag_end s i = false := by
    intro i
    cases hc : matchAt tag_end s i with
    | false => rfl
    | true =>
      exfalso
      have htrans : matchAt tag_end (p ++ (tag_start ++ (m ++ (tag_end ++ s))))
          (p.length + (tag_start.length + (m.length + (tag_end.length + i)))) =
          true := by
        rw [matchAt_append_add, matchAt_append_add, matchAt_append_add,
          matchAt_append_add]
        exact hc
      have := huniq2 _ htrans
      omega
  have hsplitD : splitOn tag_end s = [s] := splitOn_no_match _ _ hnomatchS
  apply sync_eq_of_splits
  · rw [hsplitA, hsplitB]
  · rw [hsplitC, hsplitD]
    rfl

/-! ### Where markers can and cannot occur in the spliced output -/

theorem shared_transfer (mk a x y : Str) (j : Nat) (hj : j + mk.length ≤ a.length) :
    matchAt mk (a ++ x) j = matchAt mk (a ++ y) j := by
  rw [matchAt_confine mk a x j hj, matchAt_confine mk a y j hj]

theorem head_blocked (mk blk Y : Str) (k : Nat)
    (hmk : mk ≠ []) (hk : k < blk.length)
    (hmk0 : mk[0]? = some '<') (hne : blk[k]? ≠ some '<') :
    matchAt mk (blk ++ Y) k = false := by
  cases hc : matchAt mk (blk ++ Y) k with
  | false => rfl
  | true =>
    exfalso
    have h := matchAt_head hmk hc
    rw [getAppendLeft _ _ _ hk, hmk0] at h
    exact hne h

theorem span_blocked (mk blk Y : Str) (k : Nat)
    (hnl : ∀ i, i < mk.length → mk[i]? ≠ some '\n')
    (hY : Y[0]? = some '\n')
    (hk : k ≤ blk.length) (hspan : blk.length < k + mk.length) :
    matchAt mk (blk ++ Y) k = false := by
  cases hc : matchAt mk (blk ++ Y) k with
  | false => rfl
  | true =>
    exfalso
    unfold matchAt at hc
    rw [dropAppendLe _ _ _ hk] at hc
    have hchar := isPrefixOf_getElem hc (blk.length - k) (by omega)
    have hidx : blk.length - k = (blk.drop k).length + 0 := by
      rw [List.length_drop]; omega
    rw [hidx, getAppendRight] at hchar
    rw [hY] at hchar
    exact hnl _ (by rw [List.length_drop] at hidx ⊢; omega) hchar.symm

theorem count_blocked (mk blk Y : Str) (k : Nat) (hmk : mk ≠ [])
    (hzero : occCount mk blk = 0) (hfit : k + mk.length ≤ blk.length) :
    matchAt mk (blk ++ Y) k = false := by
  rw [matchAt_confine mk blk Y k hfit]
  exact occCount_zero hmk hzero k

theorem ts_not_at_te (Y : Str) : matchAt tag_start (tag_end ++ Y) 0 = false := by
  cases hc : matchAt tag_start (tag_end ++ Y) 0 with
  | false => rfl
  | true =>
    exfalso
    unfold matchAt at hc
    rw [List.drop_zero] at hc
    have hchar := isPrefixOf_getElem hc 10 (by decide)
    rw [getAppendLeft _ _ _ (by decide)] at hchar
    exact absurd hchar (by decide)

theorem te_head_get : tag_end[0]? = some '<' := by decide

theorem ts_head_get : tag_start[0]? = some '<' := by decide

theorem tsInnerNoLt : ∀ k, k < tag_start.length → k ≠ 0 →
    tag_start[k]? ≠ some '<' := by decide

theorem teInnerNoLt : ∀ k, k < tag_end.length → k ≠ 0 →
    tag_end[k]? ≠ some '<' := by decide

theorem tsNoNewline : ∀ i, i < tag_start.length →
    tag_start[i]? ≠ some '\n' := by decide

theorem teNoNewline : ∀ i, i < tag_end.length →
    tag_end[i]? ≠ some '\n' := by decide

theorem fenceNoLt : ∀ k, k < fence.length → fence[k]? ≠ some '<' := by decide

theorem fence_head (Y : Str) : (fence ++ Y)[0]? = some '\n' := by
  rw [getAppendLeft _ _ 0 (by decide)]
  decide

/-- In the spliced output the start marker occurs exactly once, provided it
occurred exactly once in the original document and not at all in the help
text. -/
theorem occCount_out_ts (p m s H : Str)
    (hts : occCount tag_start (p ++ (tag_start ++ (m ++ (tag_end ++ s)))) = 1)
    (hH : occCount tag_start H = 0) :
    occCount tag_start
      (p ++ (tag_start ++ (fence ++ (H ++ (fence ++ (tag_end ++ s)))))) = 1 := by
  have hts_ne : tag_start ≠ ([] : Str) := by decide
  have hts_len : tag_start.length = 19 := by decide
  have hte_len : tag_end.length = 17 := by decide
  have hf_len : fence.length = 5 := by decide
  have h1R : matchAt tag_start (p ++ (tag_start ++ (m ++ (tag_end ++ s))))
      p.length = true := matchAt_start tag_start p _
  have huniqR : ∀ i,
      matchAt tag_start (p ++ (tag_start ++ (m ++ (tag_end ++ s)))) i = true →
      i = p.length := fun i hi => occCount_one_unique hts_ne hts hi h1R
  apply occCount_one_intro hts_ne (matchAt_start tag_start p _)
  intro j hj
  by_cases hc1 : j ≤ p.length
  · have e1 : p ++ (tag_start ++ (fence ++ (H ++ (fence ++ (tag_end ++ s))))) =
        (p ++ tag_start) ++ (fence ++ (H ++ (fence ++ (tag_end ++ s)))) := by
      rw [List.append_assoc]
    have e2 : p ++ (tag_start ++ (m ++ (tag_end ++ s))) =
        (p ++ tag_start) ++ (m ++ (tag_end ++ s)) := by
      rw [List.append_assoc]
    rw [e1, shared_transfer tag_start (p ++ tag_start) _ (m ++ (tag_end ++ s)) j
        (by rw [List.length_append]; omega), ← e2] at hj
    exact huniqR j hj
  · exfalso
    push_neg at hc1
    have hm1 := hj
    rw [matchAt_peel tag_start p _ j (by omega)] at hm1
    by_cases hc2 : j < p.length + tag_start.length
    · rw [head_blocked tag_start tag_start _ (j - p.length) hts_ne (by omega)
        ts_head_get (tsInnerNoLt _ (by omega) (by omega))] at hm1
      simp at hm1
    · rw [matchAt_peel tag_start tag_start _ _ (by omega)] at hm1
      by_cases hc3 : j < p.length + tag_start.length + fence.length
      · rw [head_blocked tag_start fence _ (j - p.length - tag_start.length)
          hts_ne (by omega) ts_head_get (fenceNoLt _ (by omega))] at hm1
        simp at hm1
      · rw [matchAt_peel tag_start fence _ _ (by omega)] at hm1
        by_cases hc4 : j < p.length + tag_start.length + fence.length + H.length
        · by_cases hfit :
              (j - p.length - tag_start.length - fence.length) +
                tag_start.length ≤ H.length
          · rw [count_blocked tag_start H _ _ hts_ne hH hfit] at hm1
            simp at hm1
          · rw [span_blocked tag_start H _ _ tsNoNewline (fence_head _)
              (by omega) (by omega)] at hm1
            simp at hm1
        · rw [matchAt_peel tag_start H _ _ (by omega)] at hm1
          by_cases hc5 : j < p.length + tag_start.length + fence.length +
              H.length + fence.length
          · rw [head_blocked tag_start fence _ _ hts_ne (by omega)
              ts_head_get (fenceNoLt _ (by omega))] at hm1
            simp at hm1
          · rw [matchAt_peel tag_start fence _ _ (by omega)] at hm1
            by_cases hc6 : j = p.length + tag_start.length + fence.length +
                H.length + fence.length
            · have h0 : j - p.length - tag_start.length - fence.length -
                  H.length - fence.length = 0 := by omega
              rw [h0, ts_not_at_te s] at hm1
              simp at hm1
            · by_cases hc7 : j < p.length + tag_start.length + fence.length +
                  H.length + fence.length + tag_end.length
              · rw [head_blocked tag_start tag_end _ _ hts_ne (by omega)
                  ts_head_get (teInnerNoLt _ (by omega) (by omega))] at hm1
                simp at hm1
              · rw [matchAt_peel tag_start tag_end _ _ (by omega)] at hm1
                have hR : matchAt tag_start
                    (p ++ (tag_start ++ (m ++ (tag_end ++ s))))
                    (p.length + (tag_start.length + (m.length +
                      (tag_end.length + (j - p.length - tag_start.length -
                        fence.length - H.length - fence.length -
                        tag_end.length))))) = true := by
                  rw [matchAt_append_add, matchAt_append_add,
                    matchAt_append_add, matchAt_append_add]
                  exact hm1
                have := huniqR _ hR
                omega

/-- In the spliced output the end marker occurs exactly once — right after
the closing fence — provided it occurred exactly once in the original
document and not at all in the help text. -/
theorem occCount_out_te (p m s H : Str)
    (hte : occCount tag_end (p ++ (tag_start ++ (m ++ (tag_end ++ s)))) = 1)
    (hH : occCount tag_end H = 0) :
    occCount tag_end
      (p ++ (tag_start ++ (fence ++ (H ++ (fence ++ (tag_end ++ s)))))) = 1 := by
  have hte_ne : tag_end ≠ ([] : Str) := by decide
  have hts_len : tag_start.length = 19 := by decide
  have hte_len : tag_end.length = 17 := by decide
  have hf_len : fence.length = 5 := by decide
  have h2R : matchAt tag_end (p ++ (tag_start ++ (m ++ (tag_end ++ s))))
      (p.length + (tag_start.length + m.length)) = true := by
    rw [matchAt_append_add, matchAt_append_add]
    exact matchAt_start tag_end m s
  have huniqR : ∀ i,
      matchAt tag_end (p ++ (tag_start ++ (m ++ (tag_end ++ s)))) i = true →
      i = p.length + (tag_start.length + m.length) :=
    fun i hi => occCount_one_unique hte_ne hte hi h2R
  have htarget : matchAt tag_end
      (p ++ (tag_start ++ (fence ++ (H ++ (fence ++ (tag_end ++ s))))))
      (p.length + (tag_start.length + (fence.length +
        (H.length + (fence.length + 0))))) = true := by
    rw [matchAt_append_add, matchAt_append_add, matchAt_append_add,
      matchAt_append_add, matchAt_append_add]
    unfold matchAt
    rw [List.drop_zero]
    exact isPrefixOf_self_append tag_end s
  apply occCount_one_intro hte_ne htarget
  intro j hj
  by_cases hc1 : j ≤ p.length
  · exfalso
    have e1 : p ++ (tag_start ++ (fence ++ (H ++ (fence ++ (tag_end ++ s))))) =
        (p ++ tag_start) ++ (fence ++ (H ++ (fence ++ (tag_end ++ s)))) := by
      rw [List.append_assoc]
    have e2 : p ++ (tag_start ++ (m ++ (tag_end ++ s))) =
        (p ++ tag_start) ++ (m ++ (tag_end ++ s)) := by
      rw [List.append_assoc]
    rw [e1, shared_transfer tag_end (p ++ tag_start) _ (m ++ (tag_end ++ s)) j
        (by rw [List.length_append]; omega), ← e2] at hj
    have := huniqR j hj
    omega
  · push_neg at hc1
    have hm1 := hj
    rw [matchAt_peel tag_end p _ j (by omega)] at hm1
    by_cases hc2 : j < p.length + tag_start.length
    · exfalso
      rw [head_blocked tag_end tag_start _ (j - p.length) hte_ne (by omega)
        te_head_get (tsInnerNoLt _ (by omega) (by omega))] at hm1
      simp at hm1
    · rw [matchAt_peel tag_end tag_start _ _ (by omega)] at hm1
      by_cases hc3 : j < p.length + tag_start.length + fence.length
      · exfalso
        rw [head_blocked tag_end fence _ (j - p.length - tag_start.length)
          hte_ne (by omega) te_head_get (fenceNoLt _ (by omega))] at hm1
        simp at hm1
      · rw [matchAt_peel tag_end fence _ _ (by omega)] at hm1
        by_cases hc4 : j < p.length + tag_start.length + fence.length + H.length
        · exfalso
          by_cases hfit :
              (j - p.length - tag_start.length - fence.length) +
                tag_end.length ≤ H.length
          · rw [count_blocked tag_end H _ _ hte_ne hH hfit] at hm1
            simp at hm1
          · rw [span_blocked tag_end H _ _ teNoNewline (fence_head _)
              (by omega) (by omega)] at hm1
            simp at hm1
        · rw [matchAt_peel tag_end H _ _ (by omega)] at hm1
          by_cases hc5 : j < p.length + tag_start.length + fence.length +
              H.length + fence.length
          · exfalso
            rw [head_blocked tag_end fence _ _ hte_ne (by omega)
              te_head_get (fenceNoLt _ (by omega))] at hm1
            simp at hm1
          · by_cases hc6 : j = p.length + tag_start.length + fence.length +
                H.length + fence.length
            · omega
            · exfalso
              rw [matchAt_peel tag_end fence _ _ (by omega)] at hm1
              by_cases hc7 : j < p.length + tag_start.length + fence.length +
                  H.length + fence.length + tag_end.length
              · rw [head_blocked tag_end tag_end _ _ hte_ne (by omega)
                  te_head_get (teInnerNoLt _ (by omega) (by omega))] at hm1
                simp at hm1
              · rw [matchAt_peel tag_end tag_end _ _ (by omega)] at hm1
                have hR : matchAt tag_end
                    (p ++ (tag_start ++ (m ++ (tag_end ++ s))))
                    (p.length + (tag_start.length + (m.length +
                      (tag_end.length + (j - p.length - tag_start.length -
                        fence.length - H.length - fence.length -
                        tag_end.length))))) = true := by
                  rw [matchAt_append_add, matchAt_append_add,
                    matchAt_append_add, matchAt_append_add]
                  exact hm1
                have := huniqR _ hR
                omega

/-! ### More splice plumbing -/

theorem matchAt_extend (sep x z : Str) (i : Nat) (hi : i ≤ x.length)
    (h : matchAt sep x i = true) : matchAt sep (x ++ z) i = true := by
  unfold matchAt at h ⊢
  rw [dropAppendLe _ _ _ hi]
  exact isPrefixOf_extend z h

theorem getElemOne_singleton (x : Str) : [x][1]? = none := by simp

theorem splitOn_shape (sep l : Str) :
    ∃ hd tl, splitOn sep l = hd :: tl := by
  rcases splitOnF_head_tail sep l.length l (Nat.le_refl _) with
    ⟨hd, tl, heq, _, _⟩
  exact ⟨hd, tl, heq⟩

theorem sync_eq_of_splits_more (data H p seg e : Str) (tl : List Str)
    (h1 : splitOn tag_start data = p :: seg :: tl)
    (h2 : (splitOn tag_end seg)[1]? = some e) :
    sync data H = some (p ++ tag_start ++ fence ++ H ++ fence ++ tag_end ++ e) := by
  unfold sync
  rw [h1]
  simp only [getElemZero_cons, getElemOne_cons_cons]
  rw [h2]

theorem sync_none_of_inner (data H seg : Str)
    (h1 : (splitOn tag_start data)[1]? = some seg)
    (h2 : (splitOn tag_end seg)[1]? = none) : sync data H = none := by
  rcases splitOn_shape tag_start data with ⟨hd, tl, heq⟩
  rw [heq] at h1
  cases tl with
  | nil => rw [getElemOne_singleton] at h1; exact Option.noConfusion h1
  | cons a t =>
    rw [getElemOne_cons_cons] at h1
    injection h1 with h1'
    subst h1'
    unfold sync
    rw [heq]
    simp only [getElemZero_cons, getElemOne_cons_cons]
    rw [h2]

/-! ### Claims about the Sync splice -/

/-- Claim C2: for every README `p ++ tag_start ++ m ++ tag_end ++ s` in which
each marker occurs exactly once (start before end) and every help text `H`,
the sync output is exactly
`p ++ tag_start ++ fence ++ H ++ fence ++ tag_end ++ s`
(`fence` being newline, three backticks, newline): the region strictly
between the markers becomes the fenced wrapping of the help text, regardless
of the prior content `m`. -/
theorem c2_replacement_correct (p m s H : Str)
    (hts : occCount tag_start (p ++ (tag_start ++ (m ++ (tag_end ++ s)))) = 1)
    (hte : occCount tag_end (p ++ (tag_start ++ (m ++ (tag_end ++ s)))) = 1) :
    sync (p ++ (tag_start ++ (m ++ (tag_end ++ s)))) H =
      some (p ++ tag_start ++ fence ++ H ++ fence ++ tag_end ++ s) :=
  sync_spliced p m s H hts hte

/-- Witness for C2 at a concrete README and help text. -/
theorem c2_replacement_correct_witness :
    occCount tag_start exReadme = 1 ∧ occCount tag_end exReadme = 1 ∧
    sync exReadme "usage".data =
      some ("# title\n".data ++ tag_start ++ fence ++ "usage".data ++ fence ++
        tag_end ++ "\ntail".data) :=
  ⟨by decide, by decide,
   c2_replacement_correct "# title\n".data "\nold\n".data "\ntail".data
     "usage".data (by decide) (by decide)⟩

/-- Claim C3: for every well-formed README (each marker exactly once, start
before end) the text strictly before the start marker and the text strictly
after the end marker are unchanged by the splice: the output is
`p ++ tag_start ++ mid ++ tag_end ++ s` for some `mid`, with the same `p`
and `s`. -/
theorem c3_frame_preserved (p m s H : Str)
    (hts : occCount tag_start (p ++ (tag_start ++ (m ++ (tag_end ++ s)))) = 1)
    (hte : occCount tag_end (p ++ (tag_start ++ (m ++ (tag_end ++ s)))) = 1) :
    ∃ mid, sync (p ++ (tag_start ++ (m ++ (tag_end ++ s)))) H =
      some (p ++ (tag_start ++ (mid ++ (tag_end ++ s)))) := by
  refine ⟨fence ++ (H ++ fence), ?_⟩
  rw [sync_spliced p m s H hts hte]
  simp [List.append_assoc]

/-- Witness for C3 at a concrete README and help text. -/
theorem c3_frame_preserved_witness :
    occCount tag_start exReadme = 1 ∧ occCount tag_end exReadme = 1 ∧
    ∃ mid, sync exReadme "usage".data =
      some ("# title\n".data ++ (tag_start ++ (mid ++ (tag_end ++ "\ntail".data)))) :=
  ⟨by decide, by decide,
   c3_frame_preserved "# title\n".data "\nold\n".data "\ntail".data
     "usage".data (by decide) (by decide)⟩

/-- Counterexample to claim C1 as stated: `c1readme` contains each marker
exactly once, in order, but with help text `H := tag_end` the second
application of the splice does not reproduce the first one's output (the
first output contains a third end marker, so the second run keeps a
different suffix). -/
theorem c1_counterexample :
    occCount tag_start c1readme = 1 ∧ occCount tag_end c1readme = 1 ∧
    sync c1readme tag_end ≠ none ∧
    syncTwice c1readme tag_end ≠ sync c1readme tag_end := by
  decide

/-- Claim C1 (amended): idempotence holds for every well-formed README and
every help text in which neither marker occurs: applying the splice twice
yields the same document as applying it once. -/
theorem c1_idempotent (p m s H : Str)
    (hts : occCount tag_start (p ++ (tag_start ++ (m ++ (tag_end ++ s)))) = 1)
    (hte : occCount tag_end (p ++ (tag_start ++ (m ++ (tag_end ++ s)))) = 1)
    (hH1 : occCount tag_start H = 0) (hH2 : occCount tag_end H = 0) :
    syncTwice (p ++ (tag_start ++ (m ++ (tag_end ++ s)))) H =
      sync (p ++ (tag_start ++ (m ++ (tag_end ++ s)))) H ∧
    sync (p ++ (tag_start ++ (m ++ (tag_end ++ s)))) H ≠ none := by
  have h1 := sync_spliced p m s H hts hte
  have hts2 : occCount tag_start
      (p ++ (tag_start ++ ((fence ++ (H ++ fence)) ++ (tag_end ++ s)))) = 1 := by
    have h := occCount_out_ts p m s H hts hH1
    simp only [List.append_assoc] at h ⊢
    exact h
  have hte2 : occCount tag_end
      (p ++ (tag_start ++ ((fence ++ (H ++ fence)) ++ (tag_end ++ s)))) = 1 := by
    have h := occCount_out_te p m s H hte hH2
    simp only [List.append_assoc] at h ⊢
    exact h
  have h2 := sync_spliced p (fence ++ (H ++ fence)) s H hts2 hte2
  have hrw : p ++ tag_start ++ fence ++ H ++ fence ++ tag_end ++ s =
      p ++ (tag_start ++ ((fence ++ (H ++ fence)) ++ (tag_end ++ s))) := by
    simp [List.append_assoc]
  constructor
  · unfold syncTwice
    simp only [h1]
    calc sync (p ++ tag_start ++ fence ++ H ++ fence ++ tag_end ++ s) H
        = sync (p ++ (tag_start ++ ((fence ++ (H ++ fence)) ++ (tag_end ++ s)))) H := by
          rw [hrw]
      _ = some (p ++ tag_start ++ fence ++ H ++ fence ++ tag_end ++ s) := h2
  · rw [h1]
    simp

/-- Witness for the amended C1 at a concrete README and help text. -/
theorem c1_idempotent_witness :
    occCount tag_start exReadme = 1 ∧ occCount tag_end exReadme = 1 ∧
    occCount tag_start "usage".data = 0 ∧ occCount tag_end "usage".data = 0 ∧
    (syncTwice exReadme "usage".data = sync exReadme "usage".data ∧
      sync exReadme "usage".data ≠ none) :=
  ⟨by decide, by decide, by decide, by decide,
   c1_idempotent "# title\n".data "\nold\n".data "\ntail".data "usage".data
     (by decide) (by decide) (by decide) (by decide)⟩

/-- Claim C4: if the start marker or the end marker is absent from the
README, the splice fails (IndexError, the spec's `MalformedDocumentError`)
and the file content is left unmodified — the write step is never reached. -/
theorem c4_malformed_rejected (R H : Str)
    (h : occCount tag_start R = 0 ∨ occCount tag_end R = 0) :
    sync R H = none ∧ fileAfterSync R H = R := by
  have main : sync R H = none := by
    rcases h with h0 | h0
    · apply sync_none_of_first
      rw [splitOn_no_match tag_start R (occCount_zero (by decide) h0)]
      exact getElemOne_singleton R
    · cases hseg : (splitOn tag_start R)[1]? with
      | none => exact sync_none_of_first R H hseg
      | some seg =>
        rcases splitOn_sub_segment tag_start R seg (getElem?_some_mem hseg) with
          ⟨u, v, huv⟩
        apply sync_none_of_inner R H seg hseg
        rw [splitOn_no_match tag_end seg
          (occCount_zero_sub (by decide) h0 u v huv)]
        exact getElemOne_singleton seg
  refine ⟨main, ?_⟩
  unfold fileAfterSync
  rw [main]

/-- Witness for C4 at a README with no markers. -/
theorem c4_malformed_rejected_witness :
    (occCount tag_start c4readme = 0 ∨ occCount tag_end c4readme = 0) ∧
    sync c4readme "h".data = none ∧
    fileAfterSync c4readme "h".data = c4readme :=
  ⟨Or.inl (by decide), c4_malformed_rejected c4readme "h".data (Or.inl (by decide))⟩

/-- Counterexample to claim C5 as stated: in `c5readme` the start marker
occurs twice, yet the splice does not fail — it succeeds. -/
theorem c5_counterexample :
    occCount tag_start c5readme = 2 ∧ sync c5readme "h".data ≠ none := by
  decide

/-- Claim C5 (amended): when the start marker occurs twice (and the end
marker occurs once, between the first two start-marker occurrences), the
splice does not fail: it keeps the text before the first start marker and
the text between the end marker and the second start marker, and silently
drops the second start marker and everything after it. -/
theorem c5_duplicate_start_marker (p m s q H : Str)
    (hts : occCount tag_start
      (p ++ (tag_start ++ (m ++ (tag_end ++ (s ++ (tag_start ++ q)))))) = 2)
    (hte : occCount tag_end
      (p ++ (tag_start ++ (m ++ (tag_end ++ (s ++ (tag_start ++ q)))))) = 1) :
    sync (p ++ (tag_start ++ (m ++ (tag_end ++ (s ++ (tag_start ++ q)))))) H =
      some (p ++ tag_start ++ fence ++ H ++ fence ++ tag_end ++ s) := by
  have hts_ne : tag_start ≠ ([] : Str) := by decide
  have hte_ne : tag_end ≠ ([] : Str) := by decide
  have hts_len : tag_start.length = 19 := by decide
  have hte_len : tag_end.length = 17 := by decide
  have hu1 : matchAt tag_start
      (p ++ (tag_start ++ (m ++ (tag_end ++ (s ++ (tag_start ++ q))))))
      p.length = true := matchAt_start tag_start p _
  have hu2 : matchAt tag_start
      (p ++ (tag_start ++ (m ++ (tag_end ++ (s ++ (tag_start ++ q))))))
      (p.length + (tag_start.length + (m.length + (tag_end.length +
        (s.length + 0))))) = true := by
    rw [matchAt_append_add, matchAt_append_add, matchAt_append_add,
      matchAt_append_add, matchAt_append_add]
    unfold matchAt
    rw [List.drop_zero]
    exact isPrefixOf_self_append tag_start q
  have hcases := occCount_two_cases hts_ne hts (by omega) hu1 hu2
  have hsplitA : splitOn tag_start
      (p ++ (tag_start ++ (m ++ (tag_end ++ (s ++ (tag_start ++ q)))))) =
      p :: splitOn tag_start (m ++ (tag_end ++ (s ++ (tag_start ++ q)))) := by
    apply splitOn_cons_of_first tag_start hts_ne p _
    intro i hi
    cases hc : matchAt tag_start
        (p ++ (tag_start ++ (m ++ (tag_end ++ (s ++ (tag_start ++ q)))))) i with
    | false => rfl
    | true =>
      rcases hcases i hc with h | h
      · exact absurd h (by omega)
      · exact absurd h (by omega)
  have hassocB : m ++ (tag_end ++ (s ++ (tag_start ++ q))) =
      (m ++ (tag_end ++ s)) ++ (tag_start ++ q) := by
    simp [List.append_assoc]
  have hsplitB : splitOn tag_start (m ++ (tag_end ++ (s ++ (tag_start ++ q)))) =
      (m ++ (tag_end ++ s)) :: splitOn tag_start q := by
    rw [hassocB]
    apply splitOn_cons_of_first tag_start hts_ne _ q
    intro i hi
    cases hc : matchAt tag_start ((m ++ (tag_end ++ s)) ++ (tag_start ++ q)) i with
    | false => rfl
    | true =>
      have hcB : matchAt tag_start (m ++ (tag_end ++ (s ++ (tag_start ++ q)))) i =
          true := by
        rw [hassocB]
        exact hc
      have hcR : matchAt tag_start
          (p ++ (tag_start ++ (m ++ (tag_end ++ (s ++ (tag_start ++ q))))))
          (p.length + (tag_start.length + i)) = true := by
        rw [matchAt_append_add, matchAt_append_add]
        exact hcB
      rcases hcases _ hcR with h | h
      · exact absurd h (by omega)
      · exact absurd h (by
          simp only [List.length_append] at hi
          omega)
  have hw : matchAt tag_end
      (p ++ (tag_start ++ (m ++ (tag_end ++ (s ++ (tag_start ++ q))))))
      (p.length + (tag_start.length + m.length)) = true := by
    rw [matchAt_append_add, matchAt_append_add]
    exact matchAt_start tag_end m _
  have huniq_te : ∀ i, matchAt tag_end
      (p ++ (tag_start ++ (m ++ (tag_end ++ (s ++ (tag_start ++ q)))))) i = true →
      i = p.length + (tag_start.length + m.length) :=
    fun i hi => occCount_one_unique hte_ne hte hi hw
  have hsplitC : splitOn tag_end (m ++ (tag_end ++ s)) =
      m :: splitOn tag_end s := by
    apply splitOn_cons_of_first tag_end hte_ne m s
    intro i hi
    cases hc : matchAt tag_end (m ++ (tag_end ++ s)) i with
    | false => rfl
    | true =>
      have hlt : i < (m ++ (tag_end ++ s)).length := matchAt_lt_length hte_ne hc
      have hext : matchAt tag_end ((m ++ (tag_end ++ s)) ++ (tag_start ++ q)) i =
          true := matchAt_extend _ _ _ i (by omega) hc
      have hcB : matchAt tag_end (m ++ (tag_end ++ (s ++ (tag_start ++ q)))) i =
          true := by
        rw [hassocB]
        exact hext
      have hcR : matchAt tag_end
          (p ++ (tag_start ++ (m ++ (tag_end ++ (s ++ (tag_start ++ q))))))
          (p.length + (tag_start.length + i)) = true := by
        rw [matchAt_append_add, matchAt_append_add]
        exact hcB
      exact absurd (huniq_te _ hcR) (by omega)
  have hsplitD : splitOn tag_end s = [s] := by
    apply splitOn_no_match
    intro i
    cases hc : matchAt tag_end s i with
    | false => rfl
    | true =>
      exfalso
      have hlt : i < s.length := matchAt_lt_length hte_ne hc
      have hext : matchAt tag_end (s ++ (tag_start ++ q)) i = true :=
        matchAt_extend _ _ _ i (by omega) hc
      have hcR : matchAt tag_end
          (p ++ (tag_start ++ (m ++ (tag_end ++ (s ++ (tag_start ++ q))))))
          (p.length + (tag_start.length + (m.length + (tag_end.length + i)))) =
          true := by
        rw [matchAt_append_add, matchAt_append_add, matchAt_append_add,
          matchAt_append_add]
        exact hext
      have := huniq_te _ hcR
      omega
  apply sync_eq_of_splits_more _ H p (m ++ (tag_end ++ s)) s
    (splitOn tag_start q) (by rw [hsplitA, hsplitB])
  rw [hsplitC, hsplitD]
  exact getElemOne_cons_cons m s []

/-- Witness for the amended C5: the double-start-marker README `c5readme`
is spliced successfully, keeping `"y"` and dropping the trailing
`tag_start ++ "z"`. -/
theorem c5_duplicate_start_marker_witness :
    occCount tag_start c5readme = 2 ∧ occCount tag_end c5readme = 1 ∧
    sync c5readme "h".data =
      some ("a".data ++ tag_start ++ fence ++ "h".data ++ fence ++ tag_end ++
        "y".data) :=
  ⟨by decide, by decide,
   c5_duplicate_start_marker "a".data "x".data "y".data "z".data "h".data
     (by decide) (by decide)⟩

/-- Claim C9: for a README with one start marker followed by two end markers
(`c9readme = "a" ++ tag_start ++ "m" ++ tag_end ++ "u" ++ tag_end ++ "v"`),
the splice succeeds and the suffix it keeps after the end marker is exactly
`"u"` — the text between the first and second end-marker occurrences; the
second end marker and everything after it (`"v"`) are silently dropped. -/
theorem c9_second_end_marker_dropped :
    occCount tag_start c9readme = 1 ∧ occCount tag_end c9readme = 2 ∧
    sync c9readme "h".data =
      some ("a".data ++ tag_start ++ fence ++ "h".data ++ fence ++ tag_end ++
        "u".data) := by
  decide

/-- Claim C10: whenever sync_readme.py succeeds, the text it prints to
standard output is the same text it writes into the README file (both are
the variable `out`), which is also the value of the splice. -/
theorem c10_echo_equals_write (data H : Str) (tr : List SyncEffect)
    (h : syncRun data H = some tr) :
    echoedText tr = writtenText tr ∧ echoedText tr = sync data H := by
  unfold syncRun at h
  cases hs : sync data H with
  | none =>
    rw [hs] at h
    exact Option.noConfusion h
  | some out =>
    simp only [hs, Option.some.injEq] at h
    subst h
    exact ⟨rfl, rfl⟩

/-- Witness for C10 at a concrete run. -/
theorem c10_echo_equals_write_witness :
    echoedText [SyncEffect.echo c10out, SyncEffect.writeFile c10out] =
      writtenText [SyncEffect.echo c10out, SyncEffect.writeFile c10out] ∧
    echoedText [SyncEffect.echo c10out, SyncEffect.writeFile c10out] =
      sync c1readme "h".data :=
  c10_echo_equals_write c1readme "h".data
    [SyncEffect.echo c10out, SyncEffect.writeFile c10out] (by decide)

/-! ### Claims about the Check tool -/

/-- Claim C6: when the README working copy differs from its committed state,
the check exits non-zero immediately: the Sync tool is not invoked, the CLI
help capture never runs, and the README is left as it was. -/
theorem c6_dirty_tree (c w : Str) (hr : Option Str) (h : c ≠ w) :
    runCheck c w hr = ⟨1, false, false, false, w⟩ := by
  unfold runCheck
  rw [if_neg h]

/-- Witness for C6 with a dirty working tree. -/
theorem c6_dirty_tree_witness :
    runCheck "a".data "b".data none = ⟨1, false, false, false, "b".data⟩ :=
  c6_dirty_tree "a".data "b".data none (by decide)

/-- Claim C7: starting from a clean tree, after the check runs the Sync tool:
if the rewritten README differs from the committed one the check prints the
diff and exits non-zero; if it is unchanged the check exits 0; and a failure
of the Sync tool itself (help capture or splice) propagates as a non-zero
exit without printing a diff. -/
theorem c7_postcondition (c w : Str) (hr : Option Str) (hclean : c = w) :
    (runCheck c w hr).exitCode =
      (match hr with
       | none => 1
       | some h =>
         match sync w h with
         | none => 1
         | some out => if c = out then 0 else 1) ∧
    (runCheck c w hr).printedDiff =
      (match hr with
       | none => false
       | some h =>
         match sync w h with
         | none => false
         | some out => if c = out then false else true) := by
  subst hclean
  unfold runCheck
  rw [if_pos rfl]
  cases hr with
  | none => exact ⟨rfl, rfl⟩
  | some h =>
    cases hs : sync c h with
    | none => simp [hs]
    | some out =>
      simp only [hs]
      by_cases hco : c = out <;> simp [hco]

/-- Witness for C7: a clean tree whose README help block is stale, so the
check exits 1 and prints the diff. -/
theorem c7_postcondition_witness :
    (runCheck c1readme c1readme (some "h".data)).exitCode = 1 ∧
    (runCheck c1readme c1readme (some "h".data)).printedDiff = true := by
  have h := c7_postcondition c1readme c1readme (some "h".data) rfl
  constructor
  · rw [h.1]
    decide
  · rw [h.2]
    decide

/-- Claim C8: starting from a clean tree whose README help block already
equals the fenced wrapping of the current CLI help output, the check exits 0
and the README afterwards is byte-identical to what it was: the sync rewrite
writes back exactly the same bytes. -/
theorem c8_check_success (p s H : Str)
    (hts : occCount tag_start
      (p ++ (tag_start ++ (fence ++ (H ++ (fence ++ (tag_end ++ s)))))) = 1)
    (hte : occCount tag_end
      (p ++ (tag_start ++ (fence ++ (H ++ (fence ++ (tag_end ++ s)))))) = 1) :
    runCheck (p ++ (tag_start ++ (fence ++ (H ++ (fence ++ (tag_end ++ s))))))
      (p ++ (tag_start ++ (fence ++ (H ++ (fence ++ (tag_end ++ s))))))
      (some H) =
      ⟨0, true, true, false,
        p ++ (tag_start ++ (fence ++ (H ++ (fence ++ (tag_end ++ s)))))⟩ := by
  have hts2 : occCount tag_start
      (p ++ (tag_start ++ ((fence ++ (H ++ fence)) ++ (tag_end ++ s)))) = 1 := by
    simp only [List.append_assoc] at hts ⊢
    exact hts
  have hte2 : occCount tag_end
      (p ++ (tag_start ++ ((fence ++ (H ++ fence)) ++ (tag_end ++ s)))) = 1 := by
    simp only [List.append_assoc] at hte ⊢
    exact hte
  have hs := sync_spliced p (fence ++ (H ++ fence)) s H hts2 hte2
  have hin : p ++ (tag_start ++ (fence ++ (H ++ (fence ++ (tag_end ++ s))))) =
      p ++ (tag_start ++ ((fence ++ (H ++ fence)) ++ (tag_end ++ s))) := by
    simp [List.append_assoc]
  have hout : p ++ tag_start ++ fence ++ H ++ fence ++ tag_end ++ s =
      p ++ (tag_start ++ (fence ++ (H ++ (fence ++ (tag_end ++ s))))) := by
    simp [List.append_assoc]
  have hsync : sync
      (p ++ (tag_start ++ (fence ++ (H ++ (fence ++ (tag_end ++ s)))))) H =
      some (p ++ (tag_start ++ (fence ++ (H ++ (fence ++ (tag_end ++ s)))))) := by
    conv_lhs => rw [hin]
    rw [hs, hout]
  simp [runCheck, hsync]

/-- Witness for C8 at a concrete already-synchronised README. -/
theorem c8_check_success_witness :
    occCount tag_start c8readme = 1 ∧ occCount tag_end c8readme = 1 ∧
    runCheck c8readme c8readme (some "usage".data) =
      ⟨0, true, true, false, c8readme⟩ :=
  ⟨by decide, by decide,
   c8_check_success "A\n".data "\nB".data "usage".data (by decide) (by decide)⟩
